import Mathlib

/-!
Verification of the Video-Poker engine (Jacks or Better).

This file is a shallow embedding, in Lean 4, of the core game logic of the
repository: the card/deck model (`lib/game/deck.ts`), the hand evaluator
(`lib/game/handEvaluator.ts`), the pay table (`lib/game/paytable.ts`), the
strategy engine (`lib/strategy/strategyEngine.ts`), the session store
(`lib/game/sessionStore.ts`) and the draw endpoint (`app/api/draw/route.ts`).
JavaScript numbers are modelled as `Nat`/`Int`/`Rat` (with explicit 32-bit
wrapping where the source uses bitwise operators), JavaScript exceptions as
`Except`, and the mutable session map as explicit state passing.  Theorems
about the embedded definitions follow after the definitions.
-/

namespace VideoPoker

/-! ### Card model (`lib/types.ts`, `lib/game/deck.ts`) -/

/-- The four suits, as in `lib/types.ts`. -/
inductive Suit where
  | hearts | diamonds | clubs | spades
deriving DecidableEq, Repr

/-- The thirteen ranks `'2' .. '10', 'J', 'Q', 'K', 'A'`, as in `lib/types.ts`. -/
inductive Rank where
  | r2 | r3 | r4 | r5 | r6 | r7 | r8 | r9 | r10 | J | Q | K | A
deriving DecidableEq, Repr

/-- A card: suit, rank and the string id carried along by the source code. -/
structure Card where
  suit : Suit
  rank : Rank
  id : String
deriving DecidableEq, Repr

/-- The ten hand classes of `lib/types.ts`. -/
inductive HandRank where
  | ROYAL_FLUSH | STRAIGHT_FLUSH | FOUR_OF_A_KIND | FULL_HOUSE | FLUSH
  | STRAIGHT | THREE_OF_A_KIND | TWO_PAIR | JACKS_OR_BETTER | NOTHING
deriving DecidableEq, Repr

/-- The wire string of a rank (the `Rank` string literals of the source). -/
def rankStr : Rank → String
  | .r2 => "2" | .r3 => "3" | .r4 => "4" | .r5 => "5" | .r6 => "6"
  | .r7 => "7" | .r8 => "8" | .r9 => "9" | .r10 => "10"
  | .J => "J" | .Q => "Q" | .K => "K" | .A => "A"

/-- The full suit name string (the `Suit` string literals of the source). -/
def suitName : Suit → String
  | .hearts => "hearts" | .diamonds => "diamonds"
  | .clubs => "clubs" | .spades => "spades"

/-- Model of `getRankValue` of `lib/game/deck.ts`: numeric value 2..14 of a rank. -/
def getRankValue : Rank → Nat
  | .r2 => 2 | .r3 => 3 | .r4 => 4 | .r5 => 5 | .r6 => 6 | .r7 => 7
  | .r8 => 8 | .r9 => 9 | .r10 => 10 | .J => 11 | .Q => 12 | .K => 13 | .A => 14

/-- The `SUITS` constant of `lib/game/deck.ts`. -/
def SUITS : List Suit := [.hearts, .diamonds, .clubs, .spades]

/-- The `RANKS` constant of `lib/game/deck.ts`. -/
def RANKS : List Rank :=
  [.r2, .r3, .r4, .r5, .r6, .r7, .r8, .r9, .r10, .J, .Q, .K, .A]

/-- Model of `createDeck` of `lib/game/deck.ts`: the ordered 52-card deck, suits outer,
ranks inner, with id `` `${suit}-${rank}-${idCounter++}` ``. -/
def createDeck : List Card :=
  ((SUITS.flatMap fun s => RANKS.map fun r => (s, r)).enum).map fun p =>
    { suit := p.2.1, rank := p.2.2,
      id := suitName p.2.1 ++ "-" ++ rankStr p.2.2 ++ "-" ++ toString p.1 }

/-- A stand-in for the JavaScript `undefined` card: out-of-range array reads in
the source yield `undefined`; the embedding yields this card.  None of the
theorems below depends on its value. -/
def undefCard : Card := { suit := .hearts, rank := .r2, id := "undefined" }

/-- Swap the elements at positions `i` and `j` of a list — the JavaScript
destructuring swap `[a[i], a[j]] = [a[j], a[i]]`.  If either index is out of
range the list is returned unchanged (the source never does this: every swap
index is in range). -/
def listSwap (l : List Card) (i j : Nat) : List Card :=
  match l[i]?, l[j]? with
  | some a, some b => (l.set i b).set j a
  | _, _ => l

/-- The Fisher-Yates loop of `shuffleDeck` (`lib/game/deck.ts`): for `i` from
`n-1` down to `1`, swap position `i` with position `randAt i`.  The
per-index random draw `crypto.randomInt(0, i + 1)` is modelled by the
explicit stream `randAt` (the operating-system entropy source). -/
def fisherYatesGo (randAt : Nat → Nat) : Nat → List Card → List Card
  | 0, l => l
  | i + 1, l => fisherYatesGo randAt i (listSwap l (i + 1) (randAt (i + 1)))

/-- Model of `shuffleDeck` of `lib/game/deck.ts`, with the CSPRNG draws made explicit as
the stream `randAt` (`randAt i` is the value `randomInt(0, i + 1)` returned at
loop index `i`). -/
def shuffleDeck (deck : List Card) (randAt : Nat → Nat) : List Card :=
  fisherYatesGo randAt (deck.length - 1) deck

/-- Truncation to a signed 32-bit integer: the JavaScript `| 0` (`ToInt32`). -/
def toInt32 (n : Int) : Int := (n + 2 ^ 31) % 2 ^ 32 - 2 ^ 31

/-- The seed-folding loop of `seededShuffleDeck`:
`seedNum = ((seedNum << 5) - seedNum + seed.charCodeAt(i)) | 0` over every
character, then `Math.abs`.  `charCodeAt` is modelled by `Char.toNat` (the
seeds produced by the server are ASCII, where the two agree). -/
def seedFromKey (seed : String) : Int :=
  (seed.data.foldl (fun s c => toInt32 (toInt32 (s * 32) - s + (c.toNat : Int))) 0).natAbs

/-- One step of the linear congruential generator of `seededShuffleDeck`:
`seedNum = (seedNum * 1103515245 + 12345) & 0x7fffffff`.  The state is always
non-negative, so the masking is reduction modulo `2^31`.  (The JavaScript
product is computed in 64-bit floating point and can lose low bits for large
states; the exact-integer model keeps them.  No theorem below depends on the
numeric values of the generated states.) -/
def lcgStep (s : Int) : Int := (s * 1103515245 + 12345) % 2 ^ 31

/-- The seeded Fisher-Yates loop of `seededShuffleDeck`: for `i` from `n-1`
down to `1`, advance the generator and swap position `i` with
`seedNum % (i + 1)`. -/
def seededGo : Int → Nat → List Card → List Card
  | _, 0, l => l
  | s, i + 1, l =>
    seededGo (lcgStep s) i (listSwap l (i + 1) ((lcgStep s) % ((i : Int) + 2)).toNat)

/-- Model of `seededShuffleDeck` of `lib/game/deck.ts`: deterministic seeded shuffle. -/
def seededShuffleDeck (deck : List Card) (seed : String) : List Card :=
  seededGo (seedFromKey seed) (deck.length - 1) deck

/-- The swap-index sequence a third party must reproduce from a revealed seed:
the values `seedNum % (i + 1)` for `i = n-1` down to `1`, a function of the
seed key and the deck length alone. -/
def seededSwapIndices : Int → Nat → List Nat
  | _, 0 => []
  | s, i + 1 => ((lcgStep s) % ((i : Int) + 2)).toNat :: seededSwapIndices (lcgStep s) i

/-- Apply a precomputed swap-index sequence with Fisher-Yates, index `n-1`
down to `1`. -/
def applySwapsDown : List Nat → Nat → List Card → List Card
  | [], _, l => l
  | _ :: _, 0, l => l
  | j :: js, i + 1, l => applySwapsDown js i (listSwap l (i + 1) j)

/-- An independently structured implementation of the seeded shuffle: first
derive the swap indices from the key, then apply them.  Used to state that the
shuffle is reproducible byte-for-byte from `(deck, key)` alone. -/
def seededShuffleDeckSpec (deck : List Card) (seed : String) : List Card :=
  applySwapsDown (seededSwapIndices (seedFromKey seed) (deck.length - 1))
    (deck.length - 1) deck

/-! ### Hand evaluator (`lib/game/handEvaluator.ts`) -/

/-- Model of `checkFlush`: all five cards share the suit of the first card. -/
def checkFlush (hand : List Card) : Bool :=
  match hand with
  | [] => true
  | c :: rest => (c :: rest).all fun x => x.suit == c.suit

/-- The consecutive-run test of `checkStraight`: each value is the previous
value plus one. -/
def consecutiveRun : List Nat → Bool
  | [] => true
  | [_] => true
  | a :: b :: rest => (b == a + 1) && consecutiveRun (b :: rest)

/-- The ascending numeric sort `values.sort((a, b) => a - b)` of
`checkStraight`. -/
def sortedValues (hand : List Card) : List Nat :=
  List.insertionSort (· ≤ ·) (hand.map fun c => getRankValue c.rank)

/-- Lexicographic comparison of character lists by code unit — the JavaScript
default string comparison (identical to UTF-16 order for the one- and
two-character rank strings compared here). -/
def charListLe : List Char → List Char → Bool
  | [], _ => true
  | _ :: _, [] => false
  | a :: as, b :: bs =>
    if a.toNat < b.toNat then true
    else if b.toNat < a.toNat then false
    else charListLe as bs

/-- The JavaScript default string ordering used by `ranks.sort()`. -/
def jsStrLe (a b : String) : Prop := charListLe a.data b.data = true

instance : DecidableRel jsStrLe :=
  fun a b => inferInstanceAs (Decidable (charListLe a.data b.data = true))

/-- The default (lexicographic string) sort `ranks.sort()` used by the
wheel test of `checkStraight`. -/
def sortedRankStrings (hand : List Card) : List String :=
  List.insertionSort jsStrLe (hand.map fun c => rankStr c.rank)

/-- Model of `checkStraight`: a consecutive run of sorted rank values, or the dedicated
wheel case comparing the sorted rank strings with `['2','3','4','5','A']`. -/
def checkStraight (hand : List Card) : Bool :=
  if consecutiveRun (sortedValues hand) then true
  else sortedRankStrings hand == ["2", "3", "4", "5", "A"]

/-- First-occurrence deduplication, tracking already-seen keys.  Models the
insertion order of JavaScript `Map` keys and of non-index object keys. -/
def firstDedupGo [DecidableEq α] (seen : List α) : List α → List α
  | [] => []
  | a :: as =>
    if a ∈ seen then firstDedupGo seen as else a :: firstDedupGo (a :: seen) as

/-- First-occurrence deduplication of a list. -/
def firstDedup [DecidableEq α] (l : List α) : List α := firstDedupGo [] l

/-- The multiset of per-rank multiplicities of a hand
(`Object.values(getRankCounts(hand))`, one entry per distinct rank). -/
def rankMultiplicities (hand : List Card) : List Nat :=
  (firstDedup (hand.map fun c => c.rank)).map
    fun r => (hand.map fun c => c.rank).count r

/-- Model of `counts` of `evaluateHand`: the multiplicities sorted descending
(`.sort((a, b) => b - a)`).  The enumeration order of the underlying object
keys does not affect this sorted list. -/
def sortedCounts (hand : List Card) : List Nat :=
  List.insertionSort (fun a b => b ≤ a) (rankMultiplicities hand)

/-- Model of `hasRank`: the hand contains a card of the given rank. -/
def hasRank (hand : List Card) (r : Rank) : Bool :=
  hand.any fun c => c.rank == r

/-- The high ranks `['J', 'Q', 'K', 'A']` of the Jacks-or-Better test. -/
def highRanks : List Rank := [.J, .Q, .K, .A]

/-- The Jacks-or-Better refinement of `evaluateHand`: find the rank that
occurs exactly twice and check that it is J, Q, K or A. -/
def pairIsHigh (hand : List Card) : Bool :=
  match (firstDedup (hand.map fun c => c.rank)).find?
      (fun r => (hand.map fun c => c.rank).count r == 2) with
  | some r => r ∈ highRanks
  | none => false

/-- The classification body of `evaluateHand` (after the length-5 guard),
with the decision chain in the source's strict precedence order. -/
def evalRank (hand : List Card) : HandRank :=
  let isFlush := checkFlush hand
  let isStraight := checkStraight hand
  let counts := sortedCounts hand
  if isFlush && isStraight && hasRank hand .A && hasRank hand .K then .ROYAL_FLUSH
  else if isFlush && isStraight then .STRAIGHT_FLUSH
  else if counts.getD 0 0 == 4 then .FOUR_OF_A_KIND
  else if counts.getD 0 0 == 3 && counts.getD 1 0 == 2 then .FULL_HOUSE
  else if isFlush then .FLUSH
  else if isStraight then .STRAIGHT
  else if counts.getD 0 0 == 3 then .THREE_OF_A_KIND
  else if counts.getD 0 0 == 2 && counts.getD 1 0 == 2 then .TWO_PAIR
  else if counts.getD 0 0 == 2 && pairIsHigh hand then .JACKS_OR_BETTER
  else .NOTHING

deriving instance DecidableEq for Except

/-- Model of `evaluateHand` of `lib/game/handEvaluator.ts`: throws
(`Except.error`) unless the hand has exactly 5 cards, otherwise classifies. -/
def evaluateHand (hand : List Card) : Except String HandRank :=
  if hand.length ≠ 5 then .error "Hand must contain exactly 5 cards"
  else .ok (evalRank hand)

/-! ### Winning-card highlighting (`getWinningCardIndices`) -/

/-- JavaScript object key enumeration order for the rank-count record:
array-index-like keys (`'2'..'10'`) first in ascending numeric order, then the
letter keys in insertion (first-occurrence) order. -/
def objRankKeys (hand : List Card) : List Rank :=
  let rs := hand.map fun c => c.rank
  ([Rank.r2, .r3, .r4, .r5, .r6, .r7, .r8, .r9, .r10].filter fun r => r ∈ rs)
    ++ (firstDedup rs).filter (fun r => r ∈ highRanks)

/-- Positions of the cards whose rank satisfies a predicate
(the `hand.forEach(..., winningIndices.push(index))` pattern). -/
def indicesWithRank (hand : List Card) (p : Rank → Bool) : List Nat :=
  (hand.enum.filter fun e => p e.2.rank).map fun e => e.1

/-- Model of `getWinningCardIndices` of `lib/game/handEvaluator.ts`. -/
def getWinningCardIndices (hand : List Card) (handRank : HandRank) : List Nat :=
  let rs := hand.map fun c => c.rank
  match handRank with
  | .NOTHING => []
  | .ROYAL_FLUSH => [0, 1, 2, 3, 4]
  | .STRAIGHT_FLUSH => [0, 1, 2, 3, 4]
  | .FLUSH => [0, 1, 2, 3, 4]
  | .STRAIGHT => [0, 1, 2, 3, 4]
  | .FULL_HOUSE => [0, 1, 2, 3, 4]
  | .FOUR_OF_A_KIND =>
    match (objRankKeys hand).find? (fun r => rs.count r == 4) with
    | some fourRank => indicesWithRank hand (fun r => r == fourRank)
    | none => indicesWithRank hand (fun _ => false)
  | .THREE_OF_A_KIND =>
    match (objRankKeys hand).find? (fun r => rs.count r == 3) with
    | some threeRank => indicesWithRank hand (fun r => r == threeRank)
    | none => indicesWithRank hand (fun _ => false)
  | .TWO_PAIR =>
    let pairRanks := (objRankKeys hand).filter fun r => rs.count r == 2
    indicesWithRank hand (fun r => r ∈ pairRanks)
  | .JACKS_OR_BETTER =>
    match (objRankKeys hand).find? (fun r => rs.count r == 2 && r ∈ highRanks) with
    | some pairRank => indicesWithRank hand (fun r => r == pairRank)
    | none => indicesWithRank hand (fun _ => false)

/-! ### Pay table (`lib/game/paytable.ts`) -/

/-- The fixed per-rank multiplier record of `getMultiplier`. -/
def multipliersTable : HandRank → Int
  | .ROYAL_FLUSH => 250
  | .STRAIGHT_FLUSH => 50
  | .FOUR_OF_A_KIND => 25
  | .FULL_HOUSE => 9
  | .FLUSH => 6
  | .STRAIGHT => 4
  | .THREE_OF_A_KIND => 3
  | .TWO_PAIR => 2
  | .JACKS_OR_BETTER => 1
  | .NOTHING => 0

/-- Model of `getMultiplier` of `lib/game/paytable.ts`: 800 for a Royal Flush at max
bet 5, otherwise the fixed table. -/
def getMultiplier (rank : HandRank) (bet : Int) : Int :=
  if rank = .ROYAL_FLUSH ∧ bet = 5 then 800 else multipliersTable rank

/-- The `HandEvaluation` record of `lib/types.ts`. -/
structure HandEvaluation where
  rank : HandRank
  multiplier : Int
  payout : Int
  winningCardIndices : List Nat
deriving DecidableEq, Repr

/-- Model of `calculatePayout` of `lib/game/paytable.ts`: `payout = multiplier × bet`,
with `winningCardIndices` left empty for the caller to fill in. -/
def calculatePayout (rank : HandRank) (bet : Int) : HandEvaluation :=
  { rank := rank,
    multiplier := getMultiplier rank bet,
    payout := getMultiplier rank bet * bet,
    winningCardIndices := [] }

/-! ### Strategy engine (`lib/strategy/strategyEngine.ts`) -/

/-- The 9/6 Jacks-or-Better single-coin pay table (`PAY_TABLE`) of the
strategy engine; Royal Flush counted at its max-bet 800 rate. -/
def PAY_TABLE : HandRank → Int
  | .ROYAL_FLUSH => 800
  | .STRAIGHT_FLUSH => 50
  | .FOUR_OF_A_KIND => 25
  | .FULL_HOUSE => 9
  | .FLUSH => 6
  | .STRAIGHT => 4
  | .THREE_OF_A_KIND => 3
  | .TWO_PAIR => 2
  | .JACKS_OR_BETTER => 1
  | .NOTHING => 0

/-- The `Object.keys(PAY_TABLE)` insertion order, also the iteration order of
the outcome-count map. -/
def payTableOrder : List HandRank :=
  [.ROYAL_FLUSH, .STRAIGHT_FLUSH, .FOUR_OF_A_KIND, .FULL_HOUSE, .FLUSH,
   .STRAIGHT, .THREE_OF_A_KIND, .TWO_PAIR, .JACKS_OR_BETTER, .NOTHING]

/-- The one-letter suit code used by `cardToString` / `parseCard`. -/
def suitLetter : Suit → String
  | .hearts => "H" | .diamonds => "D" | .clubs => "C" | .spades => "S"

/-- Model of `cardToString`: wire code of a card, e.g. `"AS"`, `"10H"`. -/
def cardToString (card : Card) : String :=
  rankStr card.rank ++ suitLetter card.suit

/-- The first letter of the suit name, used in `generateDeck`'s ids. -/
def suitInitial : Suit → String
  | .hearts => "h" | .diamonds => "d" | .clubs => "c" | .spades => "s"

/-- Model of `generateDeck` of the strategy engine: fresh 52-card deck, suits outer
(hearts, diamonds, clubs, spades), ranks inner (2..A). -/
def generateDeck : List Card :=
  SUITS.flatMap fun s => RANKS.map fun r =>
    { suit := s, rank := r, id := rankStr r ++ suitInitial s }

/-- The recursive combination generator `combinations(array, k)` of the
strategy engine, in its exact enumeration order: combinations containing the
head first, then the combinations of the tail. -/
def combinations : List α → Nat → List (List α)
  | _, 0 => [[]]
  | [], _ + 1 => []
  | a :: as, k + 1 =>
    ((combinations as k).map fun c => a :: c) ++ combinations as (k + 1)

/-- The final-hand reconstruction loop of `calculateEV`: for positions
`0..4`, a held position keeps `hand[i]`, every other position consumes the
next drawn card. -/
def buildFinalFrom
    (hand : List Card) (holdIndices : List Nat) :
    Nat → Nat → List Card → List Card
  | _, 0, _ => []
  | i, n + 1, drawn =>
    if i ∈ holdIndices then
      hand.getD i undefCard :: buildFinalFrom hand holdIndices (i + 1) n drawn
    else
      drawn.headD undefCard :: buildFinalFrom hand holdIndices (i + 1) n drawn.tail

/-- The candidate final hand for a hold pattern and a drawn combination. -/
def buildFinal (hand : List Card) (holdIndices : List Nat) (drawn : List Card) :
    List Card :=
  buildFinalFrom hand holdIndices 0 5 drawn

/-- The remaining candidate pool of `calculateEV`: the fresh 52-card deck
minus the held cards (matched by wire code).  Note that the source removes
only the held cards — a discarded card of the current hand stays in the
pool. -/
def remainingDeck (hand : List Card) (holdIndices : List Nat) : List Card :=
  let heldStrings := (holdIndices.map fun i => hand.getD i undefCard).map cardToString
  generateDeck.filter fun card => !(heldStrings.contains (cardToString card))

/-- The classification of a completed candidate hand inside `calculateEV`.
The reconstructed hand always has exactly 5 cards, so the length guard of
`evaluateHand` never fires (see `evaluateHand_buildFinal`). -/
def finalRank (hand : List Card) (holdIndices : List Nat) (drawn : List Card) :
    HandRank :=
  evalRank (buildFinal hand holdIndices drawn)

/-- The result record of `calculateEV`.  `totalPayout` is the source's local
accumulator variable, exposed as a field so the expected value can be related
to it. -/
structure EVResult where
  ev : Rat
  outcomeCounts : HandRank → Nat
  totalPayout : Int
  totalCombinations : Nat

/-- Model of `calculateEV` of the strategy engine: enumerate every
`(5 - |held|)`-combination of the remaining pool, classify each completed
hand, and average the pay-table multipliers. -/
def calculateEV (hand : List Card) (holdIndices : List Nat) : EVResult :=
  let pool := remainingDeck hand holdIndices
  let numToDraw := 5 - holdIndices.length
  let combos := combinations pool numToDraw
  let ranks := combos.map fun drawn => finalRank hand holdIndices drawn
  let totalPayout : Int := (ranks.map fun r => PAY_TABLE r).sum
  let totalCombinations := combos.length
  { ev := if 0 < totalCombinations
      then (totalPayout : Rat) / (totalCombinations : Rat) else 0,
    outcomeCounts := fun r => ranks.count r,
    totalPayout := totalPayout,
    totalCombinations := totalCombinations }

/-- Model of `getMostLikelyOutcome`: the non-NOTHING rank with the strictly highest
count in pay-table order, falling back to the overall most frequent rank when
every non-NOTHING count is zero. -/
def getMostLikelyOutcome (counts : HandRank → Nat) : HandRank :=
  let firstPass := payTableOrder.foldl
    (fun acc r => if counts r > acc.1 ∧ r ≠ .NOTHING then (counts r, r) else acc)
    (0, HandRank.NOTHING)
  if firstPass.2 = .NOTHING then
    (payTableOrder.foldl
      (fun acc r => if counts r > acc.1 then (counts r, r) else acc) firstPass).2
  else firstPass.2

/-- The friendly rank names of the strategy engine's own `getHandName`. -/
def strategyHandName : HandRank → String
  | .ROYAL_FLUSH => "Royal Flush"
  | .STRAIGHT_FLUSH => "Straight Flush"
  | .FOUR_OF_A_KIND => "Four of a Kind"
  | .FULL_HOUSE => "Full House"
  | .FLUSH => "Flush"
  | .STRAIGHT => "Straight"
  | .THREE_OF_A_KIND => "Three of a Kind"
  | .TWO_PAIR => "Two Pair"
  | .JACKS_OR_BETTER => "High Pair"
  | .NOTHING => "Nothing"

/-- Model of `generateExplanation` of the strategy engine.  `ev` is taken but unused,
as in the source. -/
def generateExplanation
    (holdIndices : List Nat) (_ev : Rat) (mostLikely : HandRank)
    (hand : List Card) : String :=
  if holdIndices.length == 0 then
    "Draw 5 new cards for best chance at a winning hand"
  else if holdIndices.length == 5 then
    "Keep your " ++ (strategyHandName (evalRank hand)).toLower
  else
    let heldCards := holdIndices.map fun i => hand.getD i undefCard
    let heldRanks := heldCards.map fun c => c.rank
    let pairs := (firstDedup heldRanks).filter fun r => heldRanks.count r == 2
    match pairs with
    | pairRank :: _ =>
      if pairRank ∈ highRanks then "Hold high pair, draw 3 for improved hand"
      else "Hold low pair, draw 3 for potential three/four of a kind"
    | [] =>
      if (firstDedup (heldCards.map fun c => c.suit)).length == 1
          && holdIndices.length == 4 then
        "Hold 4-card flush draw for 19.1% chance of flush"
      else if holdIndices.length == 4 then
        "Hold straight draw or high cards for multiple winning paths"
      else if (heldCards.filter fun c => c.rank ∈ highRanks).length
          == holdIndices.length then
        "Hold high cards for pair potential"
      else
        "Draw " ++ toString (5 - holdIndices.length) ++ " cards for "
          ++ (strategyHandName mostLikely).toLower

/-- The `HoldStrategy` record of the strategy engine. -/
structure HoldStrategy where
  holdIndices : List Nat
  holdCards : List String
  ev : Rat
  evPercent : Rat
  mostLikelyOutcome : String
  explanation : String
deriving DecidableEq, Repr

/-- Model of `parseFloat(x.toFixed(4))`: rounding to 4 decimal places, modelled over
exact rationals. -/
def toFixed4 (q : Rat) : Rat := (round (q * 10000) : Rat) / 10000

/-- Model of `parseFloat(x.toFixed(2))`: rounding to 2 decimal places. -/
def toFixed2 (q : Rat) : Rat := (round (q * 100) : Rat) / 100

/-- The hold positions encoded by a bitmask: indices `i < 5` with
`mask & (1 << i)` set, in ascending order. -/
def maskToHoldIndices (mask : Nat) : List Nat :=
  (List.range 5).filter fun i => mask.testBit i

/-- The `HoldStrategy` record built by `analyzeHand` for one hold bitmask. -/
def strategyForMask (hand : List Card) (mask : Nat) : HoldStrategy :=
  let holdIndices := maskToHoldIndices mask
  let r := calculateEV hand holdIndices
  let mostLikely := getMostLikelyOutcome r.outcomeCounts
  { holdIndices := holdIndices,
    holdCards := holdIndices.map fun i => cardToString (hand.getD i undefCard),
    ev := toFixed4 r.ev,
    evPercent := toFixed2 (r.ev * 100),
    mostLikelyOutcome := strategyHandName mostLikely,
    explanation := generateExplanation holdIndices r.ev mostLikely hand }

/-- The comparator of `strategies.sort((a, b) => b.ev - a.ev)`: descending by
stored expected value.  `Array.prototype.sort` is a stable sort, which
`List.insertionSort` with this non-strict relation reproduces exactly. -/
def evDesc (a b : HoldStrategy) : Prop := b.ev ≤ a.ev

instance : DecidableRel evDesc := fun a b => inferInstanceAs (Decidable (b.ev ≤ a.ev))

/-- Model of `analyzeHand` of the strategy engine: build the 32 hold strategies in
bitmask order, stable-sort by expected value descending, return the top 3. -/
def analyzeHand (hand : List Card) : List HoldStrategy :=
  (List.insertionSort evDesc ((List.range 32).map fun mask => strategyForMask hand mask)).take 3

/-! ### Session store (`lib/game/sessionStore.ts`, in-memory mode) and the
draw endpoint (`app/api/draw/route.ts`).

The mutable `Map<string, ServerHandSession>` is modelled as an association
list threaded through every operation, and the ambient clock `Date.now()` as
an explicit `now : Int` parameter.  The `setTimeout` cleanup scheduled by
`storeSession` fires in real time outside any request and is not part of the
per-request state transition modelled here. -/

/-- The `ServerHandSession` record of `lib/types.ts`. -/
structure ServerHandSession where
  handId : String
  fullDeck : List Card
  dealtCards : List Card
  nextCardIndex : Nat
  bet : Int
  seed : String
  nonce : Nat
  timestamp : Int
  completed : Bool
deriving DecidableEq, Repr

/-- The in-memory session map, as an association list keyed by hand id. -/
abbrev Store : Type := List (String × ServerHandSession)

/-- Model of `sessions.get(handId)`. -/
def storeLookup (st : Store) (handId : String) : Option ServerHandSession :=
  (st.find? fun e => e.1 == handId).map fun e => e.2

/-- Model of `sessions.set(handId, session)`: replace in place if the key exists
(JavaScript `Map.set` keeps the original insertion position), else append. -/
def storeSet (st : Store) (handId : String) (s : ServerHandSession) : Store :=
  if st.any (fun e => e.1 == handId) then
    st.map fun e => if e.1 = handId then (handId, s) else e
  else st ++ [(handId, s)]

/-- Model of `sessions.delete(handId)`. -/
def storeErase (st : Store) (handId : String) : Store :=
  st.filter fun e => !(e.1 == handId)

/-- Model of `SESSION_EXPIRY_MS`: one hour. -/
def SESSION_EXPIRY_MS : Int := 3600000

/-- Model of `getSession` of `lib/game/sessionStore.ts` (in-memory mode): missing keys
give `none`; a session older than the expiry window is deleted from the map
and `none` is returned; otherwise the session is returned unchanged. -/
def getSession (st : Store) (now : Int) (handId : String) :
    Option ServerHandSession × Store :=
  match storeLookup st handId with
  | none => (none, st)
  | some session =>
    if now - session.timestamp > SESSION_EXPIRY_MS then (none, storeErase st handId)
    else (some session, st)

/-- Model of `validateSession` of `lib/game/sessionStore.ts`: `none` when the session
can be drawn, otherwise the error message returned to the client. -/
def validateSession (st : Store) (now : Int) (handId : String) :
    Option String × Store :=
  match getSession st now handId with
  | (none, st') => (some "Invalid or expired hand session", st')
  | (some session, st') =>
    if session.completed then (some "Hand already completed - cannot replay", st')
    else (none, st')

/-- Model of `updateSession(handId, { completed: true })`: re-read the session through
`getSession` and store it back with the completion flag set.  The only update
object the draw route ever passes is `{ completed: true }`. -/
def updateSessionCompleted (st : Store) (now : Int) (handId : String) : Store :=
  match getSession st now handId with
  | (some session, st') => storeSet st' handId { session with completed := true }
  | (none, st') => st'

/-- The replacement loop of the draw route: for each position, a held card is
kept, otherwise the next card of the stored deck is consumed; `none` models
the `'Not enough cards in deck'` early return when the cursor passes the end
of the stored deck. -/
def drawReplaceGo (deck : List Card) :
    List Bool → List Card → Nat → Option (List Card)
  | [], _, _ => some []
  | h :: hs, dealt, idx =>
    if h then
      match drawReplaceGo deck hs dealt.tail idx with
      | some rest => some (dealt.headD undefCard :: rest)
      | none => none
    else
      if deck.length ≤ idx then none
      else
        match drawReplaceGo deck hs dealt.tail (idx + 1) with
        | some rest => some (deck.getD idx undefCard :: rest)
        | none => none

/-- The final hand built by the draw route from the stored session and the
client's hold flags. -/
def drawReplace (dealt : List Card) (held : List Bool) (deck : List Card)
    (start : Nat) : Option (List Card) :=
  drawReplaceGo deck held dealt start

/-- The observable outcome of a `POST /api/draw` request: either an error
response with its HTTP status, or the success payload (final hand,
evaluation, updated balance, revealed seed and nonce). -/
inductive DrawOutcome where
  | err (status : Nat) (msg : String)
  | ok (hand : List Card) (evaluation : HandEvaluation) (balance : Int)
      (seed : String) (nonce : Nat)
deriving DecidableEq, Repr

/-- Whether a draw outcome is the success payload. -/
def DrawOutcome.isOk : DrawOutcome → Bool
  | .ok _ _ _ _ _ => true
  | .err _ _ => false

/-- The `POST` handler of `app/api/draw/route.ts`, over a typed request body
(`handId : String`, `held : List Bool`, `balance : Int`; the
`typeof h === 'boolean'` element check of the source is a typing guarantee
here).  Returns the response together with the session store after the
request. -/
def drawPost (st : Store) (now : Int) (handId : String) (held : List Bool)
    (balance : Int) : DrawOutcome × Store :=
  if handId = "" then (.err 400 "Invalid hand ID", st)
  else if held.length ≠ 5 then
    (.err 400 "Hold array must contain exactly 5 boolean values", st)
  else
    match validateSession st now handId with
    | (some msg, st1) => (.err 400 msg, st1)
    | (none, st1) =>
      match getSession st1 now handId with
      | (none, st2) => (.err 404 "Session not found", st2)
      | (some session, st2) =>
        match drawReplace session.dealtCards held session.fullDeck
            session.nextCardIndex with
        | none => (.err 500 "Not enough cards in deck", st2)
        | some finalHand =>
          match evaluateHand finalHand with
          | .error msg => (.err 500 msg, st2)
          | .ok handRank =>
            let evaluation :=
              { calculatePayout handRank session.bet with
                winningCardIndices := getWinningCardIndices finalHand handRank }
            let newBalance := balance + evaluation.payout
            let st3 := updateSessionCompleted st2 now handId
            (.ok finalHand evaluation newBalance session.seed session.nonce, st3)

/-! ## Concrete sample data used by witnesses and counterexamples -/

/-- A sample card with the wire code as id (ids never influence game logic). -/
def sCard (r : Rank) (s : Suit) : Card :=
  { suit := s, rank := r, id := rankStr r ++ suitLetter s }

/-- The wheel hand A♠ 2♠ 3♠ 4♠ 5♠. -/
def wheelSpades : List Card :=
  [sCard .A .spades, sCard .r2 .spades, sCard .r3 .spades,
   sCard .r4 .spades, sCard .r5 .spades]

/-- The royal hand 10♥ J♥ Q♥ K♥ A♥. -/
def royalHearts : List Card :=
  [sCard .r10 .hearts, sCard .J .hearts, sCard .Q .hearts,
   sCard .K .hearts, sCard .A .hearts]

/-- The pair-of-jacks hand J♥ J♣ 4♦ 7♠ 2♣. -/
def jacksHand : List Card :=
  [sCard .J .hearts, sCard .J .clubs, sCard .r4 .diamonds,
   sCard .r7 .spades, sCard .r2 .clubs]

/-- The royal-draw hand A♥ K♥ Q♥ J♥ 2♠ (four to a royal plus an off-suit
discard). -/
def royalDrawHand : List Card :=
  [sCard .A .hearts, sCard .K .hearts, sCard .Q .hearts,
   sCard .J .hearts, sCard .r2 .spades]

/-- A sample stored session: straight-flush cards dealt, small stored deck. -/
def sampleSession : ServerHandSession :=
  { handId := "h1", fullDeck := createDeck.take 8, dealtCards := createDeck.take 5,
    nextCardIndex := 5, bet := 1, seed := "s", nonce := 7, timestamp := 0,
    completed := false }

/-- The bitmask encoded by a strategy's hold indices (recovers the
enumeration index of `analyzeHand`'s mask loop). -/
def maskOfStrategy (r : HoldStrategy) : Nat :=
  r.holdIndices.foldl (fun acc i => acc + 2 ^ i) 0

/-! ## Theorems

Each claim of the specification audit is settled by one theorem below,
preceded by helper lemmas shared across claims. -/

/-- Factorization lemma: the seeded Fisher-Yates loop equals first computing
the swap-index sequence from the generator state, then applying it. -/
theorem seededGo_eq_applySwapsDown :
    ∀ (n : Nat) (s : Int) (l : List Card),
      seededGo s n l = applySwapsDown (seededSwapIndices s n) n l := by
  intro n
  induction n with
  | zero => intro s l; rfl
  | succ i ih =>
    intro s l
    simp only [seededGo, seededSwapIndices, applySwapsDown]
    exact ih (lcgStep s) _

/-- C4: the seeded shuffle is deterministic — the output is a pure function
of the input deck and the seed-key string (equal inputs give equal outputs,
independently of any ambient entropy), and it coincides with the
independently structured reference implementation `seededShuffleDeckSpec`,
so a third party can reproduce the permutation byte-for-byte from
`(deck, key)` alone. -/
theorem seededShuffleDeck_deterministic :
    ∀ (deck₁ deck₂ : List Card) (key₁ key₂ : String),
      deck₁ = deck₂ → key₁ = key₂ →
      seededShuffleDeck deck₁ key₁ = seededShuffleDeck deck₂ key₂ ∧
      seededShuffleDeck deck₁ key₁ = seededShuffleDeckSpec deck₁ key₁ := by
  intro deck₁ deck₂ key₁ key₂ hd hk
  subst hd; subst hk
  exact ⟨rfl, seededGo_eq_applySwapsDown _ _ _⟩

/-- Witness for C4 at a concrete deck and key. -/
theorem seededShuffleDeck_deterministic_witness :
    seededShuffleDeck (createDeck.take 6) "xy:123"
        = seededShuffleDeck (createDeck.take 6) "xy:123" ∧
    seededShuffleDeck (createDeck.take 6) "xy:123"
        = seededShuffleDeckSpec (createDeck.take 6) "xy:123" :=
  seededShuffleDeck_deterministic _ _ _ _ rfl rfl

/-- C7: the Royal Flush multiplier is 800 exactly at bet 5 and 250 otherwise;
every other rank has a fixed bet-independent multiplier; and
`calculatePayout` always returns `multiplier × bet`, so a NOTHING hand pays 0
for every bet. -/
theorem getMultiplier_calculatePayout_table :
    (∀ bet : Int, getMultiplier .ROYAL_FLUSH bet = if bet = 5 then 800 else 250)
    ∧ (∀ bet : Int, getMultiplier .STRAIGHT_FLUSH bet = 50)
    ∧ (∀ bet : Int, getMultiplier .FOUR_OF_A_KIND bet = 25)
    ∧ (∀ bet : Int, getMultiplier .FULL_HOUSE bet = 9)
    ∧ (∀ bet : Int, getMultiplier .FLUSH bet = 6)
    ∧ (∀ bet : Int, getMultiplier .STRAIGHT bet = 4)
    ∧ (∀ bet : Int, getMultiplier .THREE_OF_A_KIND bet = 3)
    ∧ (∀ bet : Int, getMultiplier .TWO_PAIR bet = 2)
    ∧ (∀ bet : Int, getMultiplier .JACKS_OR_BETTER bet = 1)
    ∧ (∀ bet : Int, getMultiplier .NOTHING bet = 0)
    ∧ (∀ (rank : HandRank) (bet : Int),
        (calculatePayout rank bet).payout = getMultiplier rank bet * bet)
    ∧ (∀ bet : Int, (calculatePayout .NOTHING bet).payout = 0) := by
  refine ⟨fun bet => ?_, fun _ => rfl, fun _ => rfl, fun _ => rfl, fun _ => rfl,
    fun _ => rfl, fun _ => rfl, fun _ => rfl, fun _ => rfl, fun _ => rfl,
    fun _ _ => rfl, fun bet => ?_⟩
  · by_cases h : bet = 5 <;> simp [getMultiplier, multipliersTable, h]
  · show getMultiplier .NOTHING bet * bet = 0
    simp [getMultiplier, multipliersTable]

/-- C3: the wheel A♠2♠3♠4♠5♠ is classified STRAIGHT_FLUSH and passes the
straight check through the dedicated wheel case; 10♥J♥Q♥K♥A♥ is classified
ROYAL_FLUSH; and in general a 5-card hand that is both a flush and a straight
is classified ROYAL_FLUSH exactly when it contains both an Ace and a King,
and STRAIGHT_FLUSH otherwise. -/
theorem evaluateHand_royal_and_wheel :
    evaluateHand wheelSpades = .ok .STRAIGHT_FLUSH
    ∧ checkStraight wheelSpades = true
    ∧ evaluateHand royalHearts = .ok .ROYAL_FLUSH
    ∧ ∀ hand : List Card, hand.length = 5 →
        checkFlush hand = true → checkStraight hand = true →
        (evaluateHand hand = .ok .ROYAL_FLUSH
            ↔ (hasRank hand .A = true ∧ hasRank hand .K = true))
        ∧ (¬(hasRank hand .A = true ∧ hasRank hand .K = true) →
            evaluateHand hand = .ok .STRAIGHT_FLUSH) := by
  refine ⟨by decide, by decide, by decide, fun hand hlen hf hs => ?_⟩
  have hev : evaluateHand hand = .ok (evalRank hand) := by
    simp [evaluateHand, hlen]
  rw [hev]
  cases hA : hasRank hand .A <;> cases hK : hasRank hand .K <;>
    simp [evalRank, hf, hs, hA, hK]

/-- Inserting the element found at position `m` in front of the list, after
overwriting that position with `x`, permutes `x :: xs`. -/
theorem cons_set_perm :
    ∀ (xs : List Card) (m : Nat) (x b : Card), xs[m]? = some b →
      (b :: xs.set m x).Perm (x :: xs) := by
  intro xs
  induction xs with
  | nil => intro m x b h; simp at h
  | cons y t ih =>
    intro m x b h
    cases m with
    | zero =>
      simp only [List.getElem?_cons_zero, Option.some.injEq] at h
      subst h
      exact List.Perm.swap _ _ _
    | succ m' =>
      simp only [List.getElem?_cons_succ] at h
      have step : (b :: y :: t.set m' x).Perm (y :: b :: t.set m' x) :=
        List.Perm.swap _ _ _
      have mid : (y :: b :: t.set m' x).Perm (y :: x :: t) :=
        (ih m' x b h).cons y
      have last : (y :: x :: t).Perm (x :: y :: t) := List.Perm.swap _ _ _
      simpa using (step.trans mid).trans last

/-- Overwriting position `i` with the element at `j` and position `j` with the
element at `i` permutes the list. -/
theorem set_set_perm :
    ∀ (l : List Card) (i j : Nat) (a b : Card), l[i]? = some a → l[j]? = some b →
      ((l.set i b).set j a).Perm l := by
  intro l
  induction l with
  | nil => intro i j a b h1 _; simp at h1
  | cons x t ih =>
    intro i j a b h1 h2
    cases i with
    | zero =>
      simp only [List.getElem?_cons_zero, Option.some.injEq] at h1
      subst h1
      cases j with
      | zero =>
        simp only [List.getElem?_cons_zero, Option.some.injEq] at h2
        subst h2
        simp
      | succ m =>
        simp only [List.getElem?_cons_succ] at h2
        simpa using cons_set_perm t m x b h2
    | succ n =>
      simp only [List.getElem?_cons_succ] at h1
      cases j with
      | zero =>
        simp only [List.getElem?_cons_zero, Option.some.injEq] at h2
        subst h2
        simpa using cons_set_perm t n x a h1
      | succ m =>
        simp only [List.getElem?_cons_succ] at h2
        simpa using (ih n m a b h1 h2).cons x

/-- A Fisher-Yates swap permutes the list, whatever the indices. -/
theorem listSwap_perm (l : List Card) (i j : Nat) : (listSwap l i j).Perm l := by
  unfold listSwap
  cases h1 : l[i]? with
  | none => exact List.Perm.refl l
  | some a =>
    cases h2 : l[j]? with
    | none => exact List.Perm.refl l
    | some b => exact set_set_perm l i j a b h1 h2

/-- The operational Fisher-Yates loop permutes its input, for every random
stream. -/
theorem fisherYatesGo_perm (randAt : Nat → Nat) :
    ∀ (n : Nat) (l : List Card), (fisherYatesGo randAt n l).Perm l := by
  intro n
  induction n with
  | zero => intro l; exact List.Perm.refl l
  | succ i ih =>
    intro l
    exact (ih _).trans (listSwap_perm l (i + 1) (randAt (i + 1)))

/-- The seeded Fisher-Yates loop permutes its input, for every generator
state. -/
theorem seededGo_perm :
    ∀ (n : Nat) (s : Int) (l : List Card), (seededGo s n l).Perm l := by
  intro n
  induction n with
  | zero => intro s l; exact List.Perm.refl l
  | succ i ih =>
    intro s l
    exact (ih _ _).trans (listSwap_perm l (i + 1) _)

/-- C9: `createDeck` has exactly 52 cards covering the 13×4 rank/suit
combinations without duplicates, and both shuffles — the operational one for
every random stream, the seeded one for every key — return a permutation of
their input deck, so every shuffle preserves the deck invariant. -/
theorem deck_invariants_and_shuffle_perm :
    createDeck.length = 52
    ∧ (createDeck.map fun c => (c.rank, c.suit)).Nodup
    ∧ (∀ (r : Rank) (s : Suit), (r, s) ∈ createDeck.map fun c => (c.rank, c.suit))
    ∧ (∀ (deck : List Card) (randAt : Nat → Nat), (shuffleDeck deck randAt).Perm deck)
    ∧ (∀ (deck : List Card) (key : String), (seededShuffleDeck deck key).Perm deck) := by
  refine ⟨by decide, by decide, ?_, ?_, ?_⟩
  · intro r s
    cases r <;> cases s <;> decide
  · intro deck randAt
    exact fisherYatesGo_perm randAt _ deck
  · intro deck key
    exact seededGo_perm _ _ deck

/-- Looking up the key just written by `storeSet` returns the new record. -/
theorem storeLookup_storeSet_self :
    ∀ (st : Store) (k : String) (v : ServerHandSession),
      storeLookup (storeSet st k v) k = some v := by
  intro st k v
  induction st with
  | nil => simp [storeSet, storeLookup]
  | cons e rest ih =>
    by_cases he : e.1 = k
    · simp [storeSet, storeLookup, he]
    · by_cases ha : rest.any (fun x => x.1 == k)
      · simp only [storeSet, ha, List.any_cons, beq_iff_eq, he, false_or,
          if_true, List.map_cons, if_false] at ih ⊢
        simpa [storeLookup, he] using ih
      · simp only [storeSet, ha, List.any_cons, beq_iff_eq, he, false_or,
          if_false, List.cons_append] at ih ⊢
        simpa [storeLookup, he] using ih

/-- Replacing the record stored under `k` does not change lookups of other
keys. -/
theorem storeLookup_map_replace (k k' : String) (v : ServerHandSession)
    (hne : k' ≠ k) :
    ∀ st : Store,
      storeLookup (st.map fun e => if e.1 = k then (k, v) else e) k'
        = storeLookup st k' := by
  intro st
  induction st with
  | nil => rfl
  | cons e rest ih =>
    by_cases he : e.1 = k
    · have h1 : (((k, v) : String × ServerHandSession).1 == k') = false := by
        simp [Ne.symm hne]
      have h2 : (e.1 == k') = false := by simp [he, Ne.symm hne]
      unfold storeLookup at ih ⊢
      rw [List.map_cons, if_pos he]
      simp only [List.find?_cons, h1, h2]
      exact ih
    · rw [List.map_cons, if_neg he]
      by_cases he' : (e.1 == k') = true
      · unfold storeLookup
        simp only [List.find?_cons, he']
      · have h2 : (e.1 == k') = false := by simpa using he'
        unfold storeLookup at ih ⊢
        simp only [List.find?_cons, h2]
        exact ih

/-- Appending a new record under `k` does not change lookups of other keys. -/
theorem storeLookup_append_single (k k' : String) (v : ServerHandSession)
    (hne : k' ≠ k) :
    ∀ st : Store, storeLookup (st ++ [(k, v)]) k' = storeLookup st k' := by
  intro st
  induction st with
  | nil =>
    have h1 : (((k, v) : String × ServerHandSession).1 == k') = false := by
      simp [Ne.symm hne]
    unfold storeLookup
    rw [List.nil_append]
    simp only [List.find?_cons, h1, List.find?_nil]
  | cons e rest ih =>
    rw [List.cons_append]
    by_cases he' : (e.1 == k') = true
    · unfold storeLookup
      simp only [List.find?_cons, he']
    · have h2 : (e.1 == k') = false := by simpa using he'
      unfold storeLookup at ih ⊢
      simp only [List.find?_cons, h2]
      exact ih

/-- Lemma: `storeSet` leaves every other key unchanged. -/
theorem storeLookup_storeSet_ne :
    ∀ (st : Store) (k k' : String) (v : ServerHandSession), k' ≠ k →
      storeLookup (storeSet st k v) k' = storeLookup st k' := by
  intro st k k' v hne
  unfold storeSet
  by_cases ha : st.any (fun x => x.1 == k)
  · rw [if_pos ha]
    exact storeLookup_map_replace k k' v hne st
  · rw [if_neg ha]
    exact storeLookup_append_single k k' v hne st

/-- When the stored session exists and is within the expiry window,
`getSession` returns it and leaves the store unchanged. -/
theorem getSession_valid (st : Store) (now : Int) (handId : String)
    (s : ServerHandSession) (hl : storeLookup st handId = some s)
    (hexp : ¬(now - s.timestamp > SESSION_EXPIRY_MS)) :
    getSession st now handId = (some s, st) := by
  simp [getSession, hl, hexp]

/-- Inversion of a successful `validateSession`: the session exists, is not
completed, is within the expiry window, and the store is unchanged. -/
theorem validateSession_none_elim (st st1 : Store) (now : Int) (handId : String)
    (h : validateSession st now handId = (none, st1)) :
    st1 = st ∧ ∃ s : ServerHandSession, storeLookup st handId = some s
      ∧ s.completed = false ∧ ¬(now - s.timestamp > SESSION_EXPIRY_MS) := by
  unfold validateSession getSession at h
  cases hl : storeLookup st handId with
  | none => rw [hl] at h; simp at h
  | some s =>
    rw [hl] at h
    dsimp only at h
    by_cases hexp : now - s.timestamp > SESSION_EXPIRY_MS
    · rw [if_pos hexp] at h; simp at h
    · rw [if_neg hexp] at h
      dsimp only at h
      by_cases hc : s.completed = true
      · rw [if_pos hc] at h; simp at h
      · rw [if_neg hc] at h
        simp only [Prod.mk.injEq] at h
        exact ⟨h.2.symm, s, rfl, by simpa using hc, hexp⟩

/-- C1 (amended): a draw against a completed (unexpired) handle is rejected
with the SessionError `'Hand already completed - cannot replay'` (HTTP 400)
and leaves the session store — hence the stored record, balance and
evaluation — untouched; a draw against an unknown handle is rejected with
`'Invalid or expired hand session'` and no state change; a draw against an
expired handle is rejected with the same error and its only state change is
the deletion of the expired record from the store. -/
theorem draw_rejection_no_effect :
    ∀ (st : Store) (now : Int) (handId : String) (held : List Bool) (balance : Int),
      handId ≠ "" → held.length = 5 →
      (∀ s : ServerHandSession, storeLookup st handId = some s →
        s.completed = true → now - s.timestamp ≤ SESSION_EXPIRY_MS →
        drawPost st now handId held balance
          = (.err 400 "Hand already completed - cannot replay", st))
      ∧ (storeLookup st handId = none →
        drawPost st now handId held balance
          = (.err 400 "Invalid or expired hand session", st))
      ∧ (∀ s : ServerHandSession, storeLookup st handId = some s →
        now - s.timestamp > SESSION_EXPIRY_MS →
        drawPost st now handId held balance
          = (.err 400 "Invalid or expired hand session", storeErase st handId)) := by
  intro st now handId held balance hid hlen
  refine ⟨fun s hl hcomp hexp => ?_, fun hl => ?_, fun s hl hexp => ?_⟩
  · simp [drawPost, validateSession, getSession, hid, hlen, hl, hcomp,
      not_lt.mpr hexp]
  · simp [drawPost, validateSession, getSession, hid, hlen, hl]
  · simp [drawPost, validateSession, getSession, hid, hlen, hl, hexp]

/-- Witness for C1 at a concrete completed and a concrete unknown handle. -/
theorem draw_rejection_no_effect_witness :
    drawPost [("h1", { sampleSession with completed := true })] 0 "h1"
        [true, true, true, true, true] 100
      = (.err 400 "Hand already completed - cannot replay",
         [("h1", { sampleSession with completed := true })])
    ∧ drawPost [] 0 "h9" [true, true, true, true, true] 100
      = (.err 400 "Invalid or expired hand session", []) :=
  ⟨(draw_rejection_no_effect _ 0 "h1" _ 100 (by decide) (by decide)).1 _
      rfl rfl (by decide),
   (draw_rejection_no_effect _ 0 "h9" _ 100 (by decide) (by decide)).2.1 rfl⟩

/-- Counterexample to C1 as stated: a draw against an expired handle is
rejected, but it does change the stored state — the expired record is
deleted from the session store. -/
theorem draw_expired_state_change :
    (drawPost [("h1", sampleSession)] 9999999999 "h1"
        [true, true, true, true, true] 100).1
      = .err 400 "Invalid or expired hand session"
    ∧ (drawPost [("h1", sampleSession)] 9999999999 "h1"
        [true, true, true, true, true] 100).2
      ≠ [("h1", sampleSession)] := by
  constructor
  · decide
  · decide

/-- C10: a successful draw persists exactly one change to the stored
session: the `completed` flag is set to `true`.  The stored record is
otherwise bit-identical (deck, dealt cards, cursor, bet, seed, nonce,
timestamp unchanged — in particular `nextCardIndex` is never advanced in the
store), and every other key of the store is untouched. -/
theorem draw_success_frame :
    ∀ (st : Store) (now : Int) (handId : String) (held : List Bool) (balance : Int),
      (drawPost st now handId held balance).1.isOk = true →
      ∃ s : ServerHandSession, storeLookup st handId = some s
        ∧ s.completed = false
        ∧ (drawPost st now handId held balance).2
            = storeSet st handId { s with completed := true }
        ∧ storeLookup (drawPost st now handId held balance).2 handId
            = some { s with completed := true }
        ∧ ∀ k : String, k ≠ handId →
            storeLookup (drawPost st now handId held balance).2 k
              = storeLookup st k := by
  intro st now handId held balance hOk
  by_cases hid : handId = ""
  · simp [drawPost, hid, DrawOutcome.isOk] at hOk
  by_cases hlen : held.length = 5
  case neg => simp [drawPost, hid, hlen, DrawOutcome.isOk] at hOk
  rcases hv : validateSession st now handId with ⟨vOpt, st1⟩
  cases vOpt with
  | some msg => simp [drawPost, hid, hlen, hv, DrawOutcome.isOk] at hOk
  | none =>
    obtain ⟨hst1, s, hl, hcomp, hexp⟩ := validateSession_none_elim st st1 now handId hv
    rw [hst1] at hv
    have hg : getSession st now handId = (some s, st) :=
      getSession_valid st now handId s hl hexp
    cases hd : drawReplace s.dealtCards held s.fullDeck s.nextCardIndex with
    | none => simp [drawPost, hid, hlen, hv, hg, hd, DrawOutcome.isOk] at hOk
    | some finalHand =>
      cases he : evaluateHand finalHand with
      | error msg => simp [drawPost, hid, hlen, hv, hg, hd, he, DrawOutcome.isOk] at hOk
      | ok handRank =>
        have hupd : updateSessionCompleted st now handId
            = storeSet st handId { s with completed := true } := by
          simp [updateSessionCompleted, hg]
        have h2 : (drawPost st now handId held balance).2
            = storeSet st handId { s with completed := true } := by
          simp [drawPost, hid, hlen, hv, hg, hd, he, hupd]
        refine ⟨s, hl, hcomp, h2, ?_, ?_⟩
        · rw [h2]; exact storeLookup_storeSet_self st handId _
        · intro k hk
          rw [h2]; exact storeLookup_storeSet_ne st handId k _ hk

/-- Witness for C10: a concrete successful draw (hold everything) against a
concrete stored session. -/
theorem draw_success_frame_witness :
    ∃ s : ServerHandSession,
      storeLookup [("h1", sampleSession)] "h1" = some s
      ∧ s.completed = false
      ∧ (drawPost [("h1", sampleSession)] 0 "h1"
            [true, true, true, true, true] 100).2
          = storeSet [("h1", sampleSession)] "h1" { s with completed := true }
      ∧ storeLookup (drawPost [("h1", sampleSession)] 0 "h1"
            [true, true, true, true, true] 100).2 "h1"
          = some { s with completed := true }
      ∧ ∀ k : String, k ≠ "h1" →
          storeLookup (drawPost [("h1", sampleSession)] 0 "h1"
              [true, true, true, true, true] 100).2 k
            = storeLookup [("h1", sampleSession)] k :=
  draw_success_frame [("h1", sampleSession)] 0 "h1"
    [true, true, true, true, true] 100 (by decide)

/-- Two Booleans are equal when their truth conditions are equivalent. -/
theorem bool_eq_of_iff {a b : Bool} (h : a = true ↔ b = true) : a = b := by
  cases a <;> cases b <;> simp_all

/-- Lemma: `checkFlush` holds exactly when all suits in the hand agree pairwise. -/
theorem checkFlush_iff (hand : List Card) :
    checkFlush hand = true ↔ ∀ a ∈ hand, ∀ b ∈ hand, a.suit = b.suit := by
  cases hand with
  | nil => simp [checkFlush]
  | cons c rest =>
    simp only [checkFlush, List.all_eq_true, beq_iff_eq]
    constructor
    · intro hall a ha b hb
      rw [hall a ha, hall b hb]
    · intro h2 x hx
      exact h2 x hx c (List.mem_cons_self c rest)

/-- Lemma: `checkFlush` is invariant under permutation of the hand. -/
theorem checkFlush_perm {h h' : List Card} (p : h.Perm h') :
    checkFlush h = checkFlush h' := by
  apply bool_eq_of_iff
  rw [checkFlush_iff, checkFlush_iff]
  constructor
  · intro hf a ha b hb
    exact hf a (p.mem_iff.mpr ha) b (p.mem_iff.mpr hb)
  · intro hf a ha b hb
    exact hf a (p.mem_iff.mp ha) b (p.mem_iff.mp hb)

/-- The sorted rank values are invariant under permutation of the hand. -/
theorem sortedValues_perm {h h' : List Card} (p : h.Perm h') :
    sortedValues h = sortedValues h' := by
  refine List.eq_of_perm_of_sorted ?_ (List.sorted_insertionSort _ _)
    (List.sorted_insertionSort _ _)
  exact (List.perm_insertionSort _ _).trans
    ((p.map _).trans (List.perm_insertionSort _ _).symm)

/-- The code-unit string order is total. -/
theorem charListLe_total : ∀ x y : List Char,
    charListLe x y = true ∨ charListLe y x = true := by
  intro x
  induction x with
  | nil => intro y; left; rfl
  | cons a as ih =>
    intro y
    cases y with
    | nil => right; rfl
    | cons b bs =>
      rcases Nat.lt_trichotomy a.toNat b.toNat with hab | hab | hab
      · left; simp [charListLe, hab]
      · have h1 : ¬a.toNat < b.toNat := by omega
        have h2 : ¬b.toNat < a.toNat := by omega
        rcases ih bs with h | h
        · left; simp [charListLe, h1, h2, h]
        · right; simp [charListLe, h1, h2, h]
      · right; simp [charListLe, hab]

/-- The code-unit string order is transitive. -/
theorem charListLe_trans : ∀ x y z : List Char,
    charListLe x y = true → charListLe y z = true → charListLe x z = true := by
  intro x
  induction x with
  | nil => intro y z _ _; rfl
  | cons a as ih =>
    intro y z le1 le2
    cases y with
    | nil => simp [charListLe] at le1
    | cons b bs =>
      cases z with
      | nil => simp [charListLe] at le2
      | cons c cs =>
        simp only [charListLe] at le1 le2 ⊢
        split_ifs at le1 le2 ⊢ <;>
          first
          | rfl
          | omega
          | (exact ih bs cs le1 le2)

/-- The code-unit string order is antisymmetric. -/
theorem charListLe_antisymm : ∀ x y : List Char,
    charListLe x y = true → charListLe y x = true → x = y := by
  intro x
  induction x with
  | nil =>
    intro y _ h2
    cases y with
    | nil => rfl
    | cons b bs => simp [charListLe] at h2
  | cons a as ih =>
    intro y h1 h2
    cases y with
    | nil => simp [charListLe] at h1
    | cons b bs =>
      simp only [charListLe] at h1 h2
      by_cases hab : a.toNat < b.toNat
      · have : ¬b.toNat < a.toNat := by omega
        simp [hab, this] at h2
      · by_cases hba : b.toNat < a.toNat
        · simp [hab, hba] at h1
        · have heq : a = b := by
            apply Char.ext
            apply UInt32.toNat.inj
            show a.toNat = b.toNat
            omega
          rw [if_neg hab, if_neg hba] at h1
          rw [if_neg hba, if_neg hab] at h2
          rw [heq, ih bs h1 h2]

instance : IsTotal String jsStrLe :=
  ⟨fun a b => charListLe_total a.data b.data⟩

instance : IsTrans String jsStrLe :=
  ⟨fun a b c => charListLe_trans a.data b.data c.data⟩

instance : IsAntisymm String jsStrLe :=
  ⟨fun _ _ h1 h2 => String.ext (charListLe_antisymm _ _ h1 h2)⟩

/-- The sorted rank strings are invariant under permutation of the hand. -/
theorem sortedRankStrings_perm {h h' : List Card} (p : h.Perm h') :
    sortedRankStrings h = sortedRankStrings h' := by
  refine List.eq_of_perm_of_sorted ?_ (List.sorted_insertionSort _ _)
    (List.sorted_insertionSort _ _)
  exact (List.perm_insertionSort _ _).trans
    ((p.map _).trans (List.perm_insertionSort _ _).symm)

/-- Lemma: `checkStraight` is invariant under permutation of the hand. -/
theorem checkStraight_perm {h h' : List Card} (p : h.Perm h') :
    checkStraight h = checkStraight h' := by
  unfold checkStraight
  rw [sortedValues_perm p, sortedRankStrings_perm p]

/-- Membership in `firstDedupGo`: in the remaining list and not yet seen. -/
theorem mem_firstDedupGo [DecidableEq α] (a : α) :
    ∀ (l seen : List α), a ∈ firstDedupGo seen l ↔ a ∈ l ∧ a ∉ seen := by
  intro l
  induction l with
  | nil => intro seen; simp [firstDedupGo]
  | cons b bs ih =>
    intro seen
    by_cases hb : b ∈ seen
    · rw [firstDedupGo, if_pos hb]
      by_cases hab : a = b
      · subst hab; simp [ih, hb]
      · simp [ih, hab]
    · rw [firstDedupGo, if_neg hb]
      by_cases hab : a = b
      · subst hab; simp [hb]
      · simp [ih, hab]

/-- Lemma: `firstDedup` keeps exactly the elements of the list. -/
theorem mem_firstDedup [DecidableEq α] (a : α) (l : List α) :
    a ∈ firstDedup l ↔ a ∈ l := by
  rw [firstDedup, mem_firstDedupGo]
  simp

/-- Lemma: `firstDedupGo` returns a duplicate-free list. -/
theorem nodup_firstDedupGo [DecidableEq α] :
    ∀ (l seen : List α), (firstDedupGo seen l).Nodup := by
  intro l
  induction l with
  | nil => intro seen; simp [firstDedupGo]
  | cons b bs ih =>
    intro seen
    by_cases hb : b ∈ seen
    · rw [firstDedupGo, if_pos hb]; exact ih seen
    · rw [firstDedupGo, if_neg hb]
      refine List.Nodup.cons ?_ (ih (b :: seen))
      intro hmem
      exact ((mem_firstDedupGo b bs (b :: seen)).mp hmem).2 (List.mem_cons_self b seen)

/-- Lemma: `firstDedup` returns a duplicate-free list. -/
theorem nodup_firstDedup [DecidableEq α] (l : List α) : (firstDedup l).Nodup :=
  nodup_firstDedupGo l []

/-- The deduplicated rank lists of permuted hands are permutations. -/
theorem firstDedup_perm_of_perm [DecidableEq α] {l l' : List α} (p : l.Perm l') :
    (firstDedup l).Perm (firstDedup l') := by
  rw [List.perm_ext_iff_of_nodup (nodup_firstDedup l) (nodup_firstDedup l')]
  intro a
  rw [mem_firstDedup, mem_firstDedup]
  exact p.mem_iff

/-- The rank-multiplicity multisets of permuted hands are permutations. -/
theorem rankMultiplicities_perm {h h' : List Card} (p : h.Perm h') :
    (rankMultiplicities h).Perm (rankMultiplicities h') := by
  unfold rankMultiplicities
  have pmap : (h.map fun c => c.rank).Perm (h'.map fun c => c.rank) := p.map _
  have hcongr : ((firstDedup (h'.map fun c => c.rank)).map
        fun r => (h'.map fun c => c.rank).count r)
      = ((firstDedup (h'.map fun c => c.rank)).map
        fun r => (h.map fun c => c.rank).count r) := by
    apply List.map_congr_left
    intro r _
    exact (pmap.count_eq r).symm
  rw [hcongr]
  exact (firstDedup_perm_of_perm pmap).map _

instance : IsTotal Nat (fun a b => b ≤ a) := ⟨fun a b => Nat.le_total b a⟩

instance : IsTrans Nat (fun a b => b ≤ a) := ⟨fun _ _ _ h1 h2 => Nat.le_trans h2 h1⟩

instance : IsAntisymm Nat (fun a b => b ≤ a) := ⟨fun _ _ h1 h2 => Nat.le_antisymm h2 h1⟩

/-- The descending multiplicity list is invariant under permutation. -/
theorem sortedCounts_perm {h h' : List Card} (p : h.Perm h') :
    sortedCounts h = sortedCounts h' := by
  refine List.eq_of_perm_of_sorted ?_ (List.sorted_insertionSort _ _)
    (List.sorted_insertionSort _ _)
  exact (List.perm_insertionSort _ _).trans
    ((rankMultiplicities_perm p).trans (List.perm_insertionSort _ _).symm)

/-- Lemma: `hasRank` is invariant under permutation of the hand. -/
theorem hasRank_perm {h h' : List Card} (p : h.Perm h') (r : Rank) :
    hasRank h r = hasRank h' r := by
  apply bool_eq_of_iff
  unfold hasRank
  rw [List.any_eq_true, List.any_eq_true]
  constructor
  · rintro ⟨c, hc, hcr⟩; exact ⟨c, p.mem_iff.mp hc, hcr⟩
  · rintro ⟨c, hc, hcr⟩; exact ⟨c, p.mem_iff.mpr hc, hcr⟩

/-- Lemma: `find?` over permuted lists agrees when the sought element is unique. -/
theorem find?_perm_of_unique [DecidableEq α] (p : α → Bool) (l l' : List α)
    (hp : l.Perm l')
    (huniq : ∀ a ∈ l, ∀ b ∈ l, p a = true → p b = true → a = b) :
    l.find? p = l'.find? p := by
  cases h1 : l.find? p with
  | none =>
    have hnone : ∀ x ∈ l, ¬p x = true := List.find?_eq_none.mp h1
    symm
    rw [List.find?_eq_none]
    intro x hx
    exact hnone x (hp.mem_iff.mpr hx)
  | some a =>
    have hpa := List.find?_some h1
    have hma := List.mem_of_find?_eq_some h1
    cases h2 : l'.find? p with
    | none =>
      have hnone : ∀ x ∈ l', ¬p x = true := List.find?_eq_none.mp h2
      exact absurd hpa (hnone a (hp.mem_iff.mp hma))
    | some b =>
      have hpb := List.find?_some h2
      have hmb := List.mem_of_find?_eq_some h2
      rw [huniq a hma b (hp.mem_iff.mpr hmb) hpa hpb]

/-- Two distinct elements of a duplicate-free list that map to the same value
give that value multiplicity at least 2 in the mapped list. -/
theorem two_le_count_map [DecidableEq α] [DecidableEq β] (f : α → β)
    (l : List α) (_hnd : l.Nodup) (a b : α) (ha : a ∈ l) (hb : b ∈ l)
    (hab : a ≠ b) (v : β) (hfa : f a = v) (hfb : f b = v) :
    2 ≤ (l.map f).count v := by
  have h1 : l.Perm (a :: l.erase a) := List.perm_cons_erase ha
  have hb1 : b ∈ l.erase a := (List.mem_erase_of_ne (Ne.symm hab)).mpr hb
  have h2 : (l.erase a).Perm (b :: (l.erase a).erase b) := List.perm_cons_erase hb1
  have hperm : (l.map f).Perm (f a :: f b :: ((l.erase a).erase b).map f) := by
    calc (l.map f).Perm ((a :: l.erase a).map f) := h1.map f
    _ = f a :: (l.erase a).map f := rfl
    _ |>.Perm (f a :: (b :: (l.erase a).erase b).map f) := (h2.map f).cons (f a)
  rw [hperm.count_eq]
  simp [List.count_cons, hfa, hfb]

/-- In the Jacks-or-Better branch (`counts[0] = 2`, `counts[1] ≠ 2`) the rank
of multiplicity 2 is unique. -/
theorem unique_pair_rank (hand : List Card)
    (hc0 : (sortedCounts hand).getD 0 0 = 2)
    (hc1 : (sortedCounts hand).getD 1 0 ≠ 2) :
    ∀ a ∈ firstDedup (hand.map fun c => c.rank),
      ∀ b ∈ firstDedup (hand.map fun c => c.rank),
        (hand.map fun c => c.rank).count a = 2 →
        (hand.map fun c => c.rank).count b = 2 → a = b := by
  intro a ha b hb hca hcb
  by_contra hab
  have h2 : 2 ≤ (rankMultiplicities hand).count 2 := by
    unfold rankMultiplicities
    exact two_le_count_map _ _ (nodup_firstDedup _) a b ha hb hab 2 hca hcb
  have hsc : (sortedCounts hand).count 2 = (rankMultiplicities hand).count 2 :=
    (List.perm_insertionSort _ _).count_eq 2
  have hs : (sortedCounts hand).Sorted fun a b => b ≤ a :=
    List.sorted_insertionSort _ _
  rcases hS : sortedCounts hand with _ | ⟨x, _ | ⟨y, t⟩⟩
  · rw [hS] at hc0; simp at hc0
  · rw [hS] at hsc
    rw [← hsc] at h2
    have hle : [x].count 2 ≤ 1 := by simpa using List.count_le_length 2 [x]
    omega
  · rw [hS] at hc0 hc1 hsc hs
    simp only [List.getD_cons_zero] at hc0
    have hy : y ≠ 2 := by simpa using hc1
    subst hc0
    have hst : ∀ z ∈ t, z ≤ y :=
      (List.pairwise_cons.mp (List.pairwise_cons.mp hs).2).1
    have hct : t.count 2 = 0 := by
      rw [List.count_eq_zero]
      intro hmem
      have := hst 2 hmem
      have hyx : y ≤ 2 := (List.pairwise_cons.mp hs).1 y (List.mem_cons_self y t)
      omega
    have hcnt : (2 :: y :: t).count 2 = 1 := by
      simp [List.count_cons, hct, hy]
    rw [← hsc, hcnt] at h2
    omega

/-- Lemma: `pairIsHigh` is invariant under permutation when the pair rank is
unique, which holds in the branch where `evaluateHand` consults it. -/
theorem pairIsHigh_perm {h h' : List Card} (p : h.Perm h')
    (hc0 : (sortedCounts h).getD 0 0 = 2)
    (hc1 : (sortedCounts h).getD 1 0 ≠ 2) :
    pairIsHigh h = pairIsHigh h' := by
  unfold pairIsHigh
  have pmap : (h.map fun c => c.rank).Perm (h'.map fun c => c.rank) := p.map _
  have hfun : (fun r => (h'.map fun c => c.rank).count r == 2)
      = (fun r => (h.map fun c => c.rank).count r == 2) := by
    funext r
    rw [pmap.count_eq r]
  rw [hfun,
    find?_perm_of_unique _ _ _ (firstDedup_perm_of_perm pmap)
      (fun a ha b hb hpa hpb =>
        unique_pair_rank h hc0 hc1 a ha b hb
          (by simpa using hpa) (by simpa using hpb))]

/-- The classification body is invariant under permutation of the hand. -/
theorem evalRank_perm {h h' : List Card} (p : h.Perm h') :
    evalRank h = evalRank h' := by
  have hF := checkFlush_perm p
  have hS := checkStraight_perm p
  have hC := sortedCounts_perm p
  have hA := hasRank_perm p .A
  have hK := hasRank_perm p .K
  simp only [evalRank]
  rw [hF, hS, hC, hA, hK]
  by_cases hc0 : (sortedCounts h').getD 0 0 = 2
  · by_cases hc1 : (sortedCounts h').getD 1 0 = 2
    · have hc0' := hc0
      have hc1' := hc1
      rw [List.getD_eq_getElem?_getD] at hc0' hc1'
      simp [hc0', hc1']
    · rw [pairIsHigh_perm p (by rw [hC]; exact hc0) (by rw [hC]; exact hc1)]
  · have hc0' := hc0
    rw [List.getD_eq_getElem?_getD] at hc0'
    simp [hc0']

/-- C8: hand classification is order-independent — `evaluateHand` returns
the same result on every permutation of a 5-card hand. -/
theorem evaluateHand_perm_invariant :
    ∀ h h' : List Card, h.length = 5 → h.Perm h' →
      evaluateHand h = evaluateHand h' := by
  intro h h' hlen hp
  have hlen' : h'.length = 5 := by rw [← hp.length_eq]; exact hlen
  simp [evaluateHand, hlen, hlen', evalRank_perm hp]

/-- Witness for C8 at a concrete permuted pair of hands. -/
theorem evaluateHand_perm_invariant_witness :
    royalHearts.length = 5
    ∧ royalHearts.Perm royalHearts.reverse
    ∧ evaluateHand royalHearts = evaluateHand royalHearts.reverse :=
  ⟨by decide, by decide,
    evaluateHand_perm_invariant royalHearts royalHearts.reverse
      (by decide) (by decide)⟩

/-- The recursive generator `combinations` enumerates exactly
`choose (|l|, k)` combinations: the enumeration is total over the
combinatorial space. -/
theorem combinations_length :
    ∀ (l : List α) (k : Nat), (combinations l k).length = l.length.choose k := by
  intro l
  induction l with
  | nil => intro k; cases k <;> simp [combinations]
  | cons a as ih =>
    intro k
    cases k with
    | zero => simp [combinations]
    | succ n =>
      simp only [combinations, List.length_append, List.length_map, ih n,
        ih (n + 1), List.length_cons, Nat.choose_succ_succ]

/-- A duplicate-free list included in a duplicate-free list is no longer. -/
theorem nodup_subset_length_le [DecidableEq β] (keys img : List β)
    (h1 : keys.Nodup) (h2 : img.Nodup) (hsub : ∀ b ∈ keys, b ∈ img) :
    keys.length ≤ img.length := by
  classical
  have hf : keys.toFinset ⊆ img.toFinset := by
    intro b hb
    simp only [List.mem_toFinset] at *
    exact hsub b hb
  have := Finset.card_le_card hf
  rwa [List.toFinset_card_of_nodup h1, List.toFinset_card_of_nodup h2] at this

/-- Filtering out a duplicate-free set of keys, all present in the list's
duplicate-free image, removes exactly one element per key. -/
theorem filter_not_mem_length [DecidableEq β] :
    ∀ (l : List α) (f : α → β) (keys : List β),
      (l.map f).Nodup → keys.Nodup → (∀ b ∈ keys, b ∈ l.map f) →
      (l.filter fun x => !(keys.contains (f x))).length = l.length - keys.length := by
  intro l
  induction l with
  | nil =>
    intro f keys _ _ hsub
    have : keys = [] := List.eq_nil_iff_forall_not_mem.mpr fun b hb => by
      simpa using hsub b hb
    simp [this]
  | cons x xs ih =>
    intro f keys hnd hknd hsub
    rw [List.map_cons, List.nodup_cons] at hnd
    obtain ⟨hfx, hnd'⟩ := hnd
    have hkle : keys.length ≤ xs.length + 1 := by
      have := nodup_subset_length_le keys ((x :: xs).map f) hknd
        (by rw [List.map_cons, List.nodup_cons]; exact ⟨hfx, hnd'⟩)
        (by intro b hb; exact hsub b hb)
      simpa using this
    by_cases hmem : f x ∈ keys
    · have hcont : (keys.contains (f x)) = true := by
        simp [List.contains, List.elem_iff, hmem]
      rw [List.filter_cons, if_neg (by rw [hcont]; simp)]
      have hfeq : (xs.filter fun y => !(keys.contains (f y)))
          = xs.filter fun y => !((keys.erase (f x)).contains (f y)) := by
        apply List.filter_congr
        intro y hy
        have hne : f y ≠ f x := by
          intro hc
          exact hfx (hc ▸ List.mem_map_of_mem f hy)
        have hiff : f y ∈ keys ↔ f y ∈ keys.erase (f x) :=
          (List.mem_erase_of_ne hne).symm
        simp only [List.contains, List.elem_eq_mem]
        rw [decide_eq_decide.mpr hiff]
      rw [hfeq, ih f (keys.erase (f x)) hnd' (hknd.erase _) ?_]
      · rw [List.length_erase_of_mem hmem]
        have h1 : 1 ≤ keys.length := by
          cases keys with
          | nil => simp at hmem
          | cons _ _ => simp
        simp only [List.length_cons]
        omega
      · intro b hb
        have hbk : b ∈ keys := by
          have := (List.Nodup.mem_erase_iff hknd).mp hb
          exact this.2
        have hbne : b ≠ f x := ((List.Nodup.mem_erase_iff hknd).mp hb).1
        have := hsub b hbk
        rw [List.map_cons] at this
        rcases List.mem_cons.mp this with h | h
        · exact absurd h hbne
        · exact h
    · have hcont : (keys.contains (f x)) = false := by
        simp [List.contains, List.elem_iff, hmem]
      rw [List.filter_cons, if_pos (by rw [hcont]; simp)]
      have hsub' : ∀ b ∈ keys, b ∈ xs.map f := by
        intro b hb
        have := hsub b hb
        rw [List.map_cons] at this
        rcases List.mem_cons.mp this with h | h
        · exact absurd (h ▸ hb) hmem
        · exact h
      have hkle' : keys.length ≤ xs.length := by
        have := nodup_subset_length_le keys (xs.map f) hknd hnd' hsub'
        simpa using this
      simp only [List.length_cons]
      rw [ih f keys hnd' hknd hsub']
      omega

/-- Every card's wire code occurs in the wire codes of the fresh deck. -/
theorem cardToString_mem_generateDeck (c : Card) :
    cardToString c ∈ generateDeck.map cardToString := by
  rcases c with ⟨s, r, id⟩
  show (rankStr r ++ suitLetter s) ∈ generateDeck.map cardToString
  cases r <;> cases s <;> decide

/-- The hold indices of a mask are strictly increasing and below 5. -/
theorem maskToHoldIndices_pairwise (mask : Nat) :
    (maskToHoldIndices mask).Pairwise (· < ·) :=
  (List.pairwise_lt_range 5).filter _

/-- Every hold index of a mask is below 5. -/
theorem maskToHoldIndices_lt (mask : Nat) :
    ∀ i ∈ maskToHoldIndices mask, i < 5 := by
  intro i hi
  have : i ∈ List.range 5 := List.mem_of_mem_filter hi
  simpa using this

/-- At most five positions can be held. -/
theorem maskToHoldIndices_length_le (mask : Nat) :
    (maskToHoldIndices mask).length ≤ 5 := by
  have := List.length_filter_le (fun i => mask.testBit i) (List.range 5)
  simpa using this

/-- The candidate pool of `calculateEV` has exactly `52 - |held|` cards: the
fresh deck minus one card per held position (and nothing else — discarded
cards stay in the pool). -/
theorem remainingDeck_length (hand : List Card) (mask : Nat)
    (hlen : hand.length = 5) (hnd : (hand.map cardToString).Nodup) :
    (remainingDeck hand (maskToHoldIndices mask)).length
      = 52 - (maskToHoldIndices mask).length := by
  have hdeck : (generateDeck.map cardToString).Nodup := by decide
  have hkeynd : (((maskToHoldIndices mask).map fun i => hand.getD i undefCard).map
      cardToString).Nodup := by
    rw [List.map_map]
    apply List.Nodup.map_on
    · intro i hi j hj hij
      have hi5 : i < hand.length := hlen ▸ maskToHoldIndices_lt mask i hi
      have hj5 : j < hand.length := hlen ▸ maskToHoldIndices_lt mask j hj
      have hgi : hand.getD i undefCard = hand[i] := List.getD_eq_getElem hand undefCard hi5
      have hgj : hand.getD j undefCard = hand[j] := List.getD_eq_getElem hand undefCard hj5
      simp only [Function.comp] at hij
      rw [hgi, hgj] at hij
      have hmi : i < (hand.map cardToString).length := by simpa using hi5
      have hmj : j < (hand.map cardToString).length := by simpa using hj5
      have : (hand.map cardToString)[i] = (hand.map cardToString)[j] := by
        rw [List.getElem_map, List.getElem_map]
        exact hij
      exact (hnd.getElem_inj_iff).mp this
    · exact (maskToHoldIndices_pairwise mask).imp Nat.ne_of_lt
  have hsub : ∀ b ∈ ((maskToHoldIndices mask).map fun i => hand.getD i undefCard).map
      cardToString, b ∈ generateDeck.map cardToString := by
    intro b hb
    rw [List.mem_map] at hb
    obtain ⟨c, _, hc⟩ := hb
    exact hc ▸ cardToString_mem_generateDeck c
  have := filter_not_mem_length generateDeck cardToString
    (((maskToHoldIndices mask).map fun i => hand.getD i undefCard).map cardToString)
    hdeck hkeynd hsub
  unfold remainingDeck
  rw [this]
  simp [show generateDeck.length = 52 by decide]

/-- The `totalCombinations` counter of `calculateEV` counts the enumerated
combinations. -/
theorem calculateEV_totalCombinations (hand : List Card) (holdIndices : List Nat) :
    (calculateEV hand holdIndices).totalCombinations
      = (combinations (remainingDeck hand holdIndices) (5 - holdIndices.length)).length :=
  rfl

/-- The `ev` field of `calculateEV` is the quotient of the accumulated payout
by the combination count. -/
theorem calculateEV_ev (hand : List Card) (holdIndices : List Nat) :
    (calculateEV hand holdIndices).ev
      = if 0 < (calculateEV hand holdIndices).totalCombinations
        then ((calculateEV hand holdIndices).totalPayout : Rat)
          / ((calculateEV hand holdIndices).totalCombinations : Rat)
        else 0 :=
  rfl

/-- C2 (amended): for every 5-card hand of distinct cards and every hold
mask, the candidate pool is the fresh 52-card deck minus the held cards only
(`52 - |held|` cards — a discarded card stays in the pool, so the pool is 48,
not 47, when four cards are held); the enumeration is total
(`choose (52 - |held|, 5 - |held|)` combinations); the internal expected
value is exactly the accumulated multiplier sum divided by that count; and
the reported `ev` field is that exact quotient rounded to 4 decimal places
(`parseFloat(ev.toFixed(4))`), not the quotient itself. -/
theorem calculateEV_exact_quotient :
    ∀ (hand : List Card) (mask : Nat), mask < 32 → hand.length = 5 →
      (hand.map cardToString).Nodup →
      (remainingDeck hand (maskToHoldIndices mask)).length
          = 52 - (maskToHoldIndices mask).length
      ∧ (calculateEV hand (maskToHoldIndices mask)).totalCombinations
          = Nat.choose (52 - (maskToHoldIndices mask).length)
              (5 - (maskToHoldIndices mask).length)
      ∧ (calculateEV hand (maskToHoldIndices mask)).ev
          = ((calculateEV hand (maskToHoldIndices mask)).totalPayout : Rat)
            / (Nat.choose (52 - (maskToHoldIndices mask).length)
                (5 - (maskToHoldIndices mask).length) : Rat)
      ∧ (strategyForMask hand mask).ev
          = toFixed4 (calculateEV hand (maskToHoldIndices mask)).ev := by
  intro hand mask _hm hlen hnd
  have hpool := remainingDeck_length hand mask hlen hnd
  have hcomb : (calculateEV hand (maskToHoldIndices mask)).totalCombinations
      = Nat.choose (52 - (maskToHoldIndices mask).length)
          (5 - (maskToHoldIndices mask).length) := by
    rw [calculateEV_totalCombinations, combinations_length, hpool]
  have hpos : 0 < Nat.choose (52 - (maskToHoldIndices mask).length)
      (5 - (maskToHoldIndices mask).length) := by
    apply Nat.choose_pos
    have := maskToHoldIndices_length_le mask
    omega
  refine ⟨hpool, hcomb, ?_, rfl⟩
  rw [calculateEV_ev, hcomb, if_pos hpos]

/-- Witness for C2 at the concrete pair-of-jacks hand, holding the first four
cards. -/
theorem calculateEV_exact_quotient_witness :
    (15 : Nat) < 32 ∧ jacksHand.length = 5
    ∧ (jacksHand.map cardToString).Nodup
    ∧ ((remainingDeck jacksHand (maskToHoldIndices 15)).length
          = 52 - (maskToHoldIndices 15).length
      ∧ (calculateEV jacksHand (maskToHoldIndices 15)).totalCombinations
          = Nat.choose (52 - (maskToHoldIndices 15).length)
              (5 - (maskToHoldIndices 15).length)
      ∧ (calculateEV jacksHand (maskToHoldIndices 15)).ev
          = ((calculateEV jacksHand (maskToHoldIndices 15)).totalPayout : Rat)
            / (Nat.choose (52 - (maskToHoldIndices 15).length)
                (5 - (maskToHoldIndices 15).length) : Rat)
      ∧ (strategyForMask jacksHand 15).ev
          = toFixed4 (calculateEV jacksHand (maskToHoldIndices 15)).ev) :=
  ⟨by decide, by decide, by decide,
    calculateEV_exact_quotient jacksHand 15 (by decide) (by decide) (by decide)⟩

/-- Counterexample to C2 as stated: holding the four cards J♥ J♣ 4♦ 7♠ of
J♥ J♣ 4♦ 7♠ 2♣, the enumerated pool has 48 single-card draws, not 47 (the
discarded 2♣ stays in the pool), and the reported `ev` field (rounded to 4
decimal places) differs from the exact quotient 29/24. -/
theorem calculateEV_ev_field_rounded :
    (calculateEV jacksHand (maskToHoldIndices 15)).totalCombinations ≠ 47
    ∧ (strategyForMask jacksHand 15).ev
        ≠ (calculateEV jacksHand (maskToHoldIndices 15)).ev := by
  constructor
  · decide
  · have hp : (calculateEV jacksHand (maskToHoldIndices 15)).totalPayout = 58 := by
      decide
    have hc : (calculateEV jacksHand (maskToHoldIndices 15)).totalCombinations = 48 := by
      decide
    have hev : (calculateEV jacksHand (maskToHoldIndices 15)).ev = 29 / 24 := by
      rw [calculateEV_ev, hp, hc]
      norm_num
    have hfield : (strategyForMask jacksHand 15).ev
        = toFixed4 (calculateEV jacksHand (maskToHoldIndices 15)).ev := rfl
    rw [hfield, hev]
    unfold toFixed4
    intro hcontra
    have h1 : ((round ((29 : Rat) / 24 * 10000) : Rat)) * 24 = 290000 := by
      field_simp at hcontra
      linarith
    have h2 : (round ((29 : Rat) / 24 * 10000)) * 24 = 290000 := by
      exact_mod_cast h1
    omega

/-- C6 (amended): holding the four royal cards A♥ K♥ Q♥ J♥ of the hand
A♥ K♥ Q♥ J♥ 2♠, the strategy engine enumerates exactly 48 single-card draws
— one per card of the remaining pool, which still contains the discarded
2♠ — and exactly 1 of them completes a Royal Flush. -/
theorem royal_draw_enumeration_counts :
    (remainingDeck royalDrawHand (maskToHoldIndices 15)).length = 48
    ∧ (calculateEV royalDrawHand (maskToHoldIndices 15)).totalCombinations = 48
    ∧ (calculateEV royalDrawHand (maskToHoldIndices 15)).outcomeCounts .ROYAL_FLUSH
        = 1 := by
  refine ⟨by decide, by decide, by decide⟩

/-- Counterexample to C6 as stated: the enumeration for the royal draw visits
48 draws, not 47. -/
theorem royal_draw_enumeration_not_47 :
    (calculateEV royalDrawHand (maskToHoldIndices 15)).totalCombinations ≠ 47 := by
  decide

/-- Inserting an element whose key precedes every key of an ev-descending,
key-stable list preserves the lexicographic (ev strictly descending, or ev
tied and key ascending) pairwise property: insertion sort with the
JavaScript comparator `(a, b) => b.ev - a.ev` is stable. -/
theorem orderedInsert_evDesc_lex (key : HoldStrategy → Nat) (a : HoldStrategy) :
    ∀ L : List HoldStrategy,
      L.Pairwise (fun x y => y.ev < x.ev ∨ (x.ev = y.ev ∧ key x < key y)) →
      (∀ b ∈ L, key a < key b) →
      (List.orderedInsert evDesc a L).Pairwise
        (fun x y => y.ev < x.ev ∨ (x.ev = y.ev ∧ key x < key y)) := by
  intro L
  induction L with
  | nil => intro _ _; simp
  | cons b t ih =>
    intro hP hk
    rw [List.orderedInsert]
    by_cases hab : evDesc a b
    · rw [if_pos hab]
      refine List.pairwise_cons.mpr ⟨?_, hP⟩
      intro x hx
      rcases List.mem_cons.mp hx with rfl | hxt
      · rcases lt_or_eq_of_le (hab : x.ev ≤ a.ev) with hlt | heq
        · exact Or.inl hlt
        · exact Or.inr ⟨heq.symm, hk x (List.mem_cons_self _ _)⟩
      · have hbx := (List.pairwise_cons.mp hP).1 x hxt
        rcases hbx with hlt | ⟨heq, _⟩
        · exact Or.inl (lt_of_lt_of_le hlt hab)
        · rcases lt_or_eq_of_le (hab : b.ev ≤ a.ev) with hlt2 | heq2
          · exact Or.inl (heq ▸ hlt2)
          · exact Or.inr ⟨heq2.symm.trans heq,
              hk x (List.mem_cons.mpr (Or.inr hxt))⟩
    · rw [if_neg hab]
      have halt : a.ev < b.ev := not_le.mp hab
      refine List.pairwise_cons.mpr
        ⟨?_, ih (List.pairwise_cons.mp hP).2
          (fun x hx => hk x (List.mem_cons.mpr (Or.inr hx)))⟩
      intro x hx
      rcases (List.mem_orderedInsert evDesc).mp hx with rfl | hxt
      · exact Or.inl halt
      · exact (List.pairwise_cons.mp hP).1 x hxt

/-- Insertion sort by descending `ev` of a key-ascending list is sorted
lexicographically: strictly greater `ev` first, ties in key order. -/
theorem insertionSort_evDesc_lex (key : HoldStrategy → Nat) :
    ∀ L : List HoldStrategy,
      L.Pairwise (fun x y => key x < key y) →
      (List.insertionSort evDesc L).Pairwise
        (fun x y => y.ev < x.ev ∨ (x.ev = y.ev ∧ key x < key y)) := by
  intro L
  induction L with
  | nil => intro _; simp
  | cons a t ih =>
    intro hP
    rw [List.insertionSort]
    apply orderedInsert_evDesc_lex
    · exact ih (List.pairwise_cons.mp hP).2
    · intro b hb
      exact (List.pairwise_cons.mp hP).1 b
        ((List.perm_insertionSort evDesc t).mem_iff.mp hb)

/-- The bitmask is recoverable from the hold indices, for every mask below
32. -/
theorem sumPow_maskToHoldIndices :
    ∀ m < 32, (maskToHoldIndices m).foldl (fun acc i => acc + 2 ^ i) 0 = m := by
  decide

/-- The strategy record of mask `m` carries `m` in its hold indices. -/
theorem maskOfStrategy_strategyForMask (hand : List Card) (m : Nat) (hm : m < 32) :
    maskOfStrategy (strategyForMask hand m) = m := by
  have h1 : (strategyForMask hand m).holdIndices = maskToHoldIndices m := rfl
  unfold maskOfStrategy
  rw [h1]
  exact sumPow_maskToHoldIndices m hm

/-- The 32 strategy records enumerated by `analyzeHand` have strictly
ascending bitmasks. -/
theorem strategies_pairwise_key (hand : List Card) :
    ((List.range 32).map fun m => strategyForMask hand m).Pairwise
      (fun x y => maskOfStrategy x < maskOfStrategy y) := by
  rw [List.pairwise_map]
  refine List.Pairwise.imp_of_mem ?_ (List.pairwise_lt_range 32)
  intro a b ha hb hlt
  rw [maskOfStrategy_strategyForMask hand a (by simpa using ha),
    maskOfStrategy_strategyForMask hand b (by simpa using hb)]
  exact hlt

/-- C5: for every 5-card hand, `analyzeHand` evaluates all 32 hold masks and
returns exactly the 3 best `HoldStrategy` records, ordered by stored
expected value descending with ties kept in bitmask enumeration order
(stable sort); every record not returned has expected value at most that of
every returned record. -/
theorem analyzeHand_top3_sorted_stable :
    ∀ hand : List Card, hand.length = 5 →
      (analyzeHand hand).length = 3
      ∧ (∀ r ∈ analyzeHand hand, ∃ m, m < 32 ∧ r = strategyForMask hand m)
      ∧ (analyzeHand hand).Pairwise
          (fun x y => y.ev < x.ev ∨ (x.ev = y.ev ∧ maskOfStrategy x < maskOfStrategy y))
      ∧ (∀ m, m < 32 →
          strategyForMask hand m ∈ analyzeHand hand
          ∨ ∀ r ∈ analyzeHand hand, (strategyForMask hand m).ev ≤ r.ev) := by
  intro hand _hlen
  have hana : analyzeHand hand
      = (List.insertionSort evDesc
          ((List.range 32).map fun m => strategyForMask hand m)).take 3 := rfl
  have hperm : (List.insertionSort evDesc
      ((List.range 32).map fun m => strategyForMask hand m)).Perm
      ((List.range 32).map fun m => strategyForMask hand m) :=
    List.perm_insertionSort _ _
  have hSlen : (List.insertionSort evDesc
      ((List.range 32).map fun m => strategyForMask hand m)).length = 32 := by
    rw [hperm.length_eq]
    simp
  have hlex := insertionSort_evDesc_lex maskOfStrategy
    ((List.range 32).map fun m => strategyForMask hand m)
    (strategies_pairwise_key hand)
  refine ⟨?_, ?_, ?_, ?_⟩
  · rw [hana, List.length_take, hSlen]
    decide
  · intro r hr
    rw [hana] at hr
    have hrS := List.Sublist.mem hr (List.take_sublist 3 _)
    have hrL := hperm.mem_iff.mp hrS
    rw [List.mem_map] at hrL
    obtain ⟨m, hm, heq⟩ := hrL
    exact ⟨m, by simpa using hm, heq.symm⟩
  · rw [hana]
    exact List.Pairwise.sublist (List.take_sublist 3 _) hlex
  · intro m hm
    have hmemL : strategyForMask hand m
        ∈ (List.range 32).map fun n => strategyForMask hand n :=
      List.mem_map_of_mem _ (List.mem_range.mpr hm)
    have hmemS := hperm.mem_iff.mpr hmemL
    rw [← List.take_append_drop 3 (List.insertionSort evDesc
      ((List.range 32).map fun n => strategyForMask hand n))] at hmemS hlex
    rcases List.mem_append.mp hmemS with htake | hdrop
    · left
      rw [hana]
      exact htake
    · right
      intro r hr
      rw [hana] at hr
      have hcross := (List.pairwise_append.mp hlex).2.2 r hr _ hdrop
      rcases hcross with hlt | ⟨heq, _⟩
      · exact le_of_lt hlt
      · exact le_of_eq heq.symm

/-- Witness for C5 at a concrete hand. -/
theorem analyzeHand_top3_sorted_stable_witness :
    royalHearts.length = 5
    ∧ ((analyzeHand royalHearts).length = 3
      ∧ (∀ r ∈ analyzeHand royalHearts, ∃ m, m < 32 ∧ r = strategyForMask royalHearts m)
      ∧ (analyzeHand royalHearts).Pairwise
          (fun x y => y.ev < x.ev ∨ (x.ev = y.ev ∧ maskOfStrategy x < maskOfStrategy y))
      ∧ (∀ m, m < 32 →
          strategyForMask royalHearts m ∈ analyzeHand royalHearts
          ∨ ∀ r ∈ analyzeHand royalHearts,
              (strategyForMask royalHearts m).ev ≤ r.ev)) :=
  ⟨by decide, analyzeHand_top3_sorted_stable royalHearts (by decide)⟩

/-- Witness for C3 at the concrete royal hand. -/
theorem evaluateHand_royal_and_wheel_witness :
    royalHearts.length = 5 ∧ checkFlush royalHearts = true
    ∧ checkStraight royalHearts = true
    ∧ ((evaluateHand royalHearts = .ok .ROYAL_FLUSH
          ↔ (hasRank royalHearts .A = true ∧ hasRank royalHearts .K = true))
        ∧ (¬(hasRank royalHearts .A = true ∧ hasRank royalHearts .K = true) →
            evaluateHand royalHearts = .ok .STRAIGHT_FLUSH)) :=
  ⟨by decide, by decide, by decide,
    evaluateHand_royal_and_wheel.2.2.2 royalHearts (by decide) (by decide) (by decide)⟩

end VideoPoker
